import Mathlib

/-!
Verification of the text annotation pipeline (preprocess / load_to_mongo /
nlp_pipeline / mongo_to_es scripts).

Strings are modelled as `List Char`.  The regular-expression substitutions of
`preprocess.clean_text` are modelled by a left-to-right scanner
(`scanSubAux`) parameterised by a matcher returning the length of the match
at the current position, which is exactly the semantics of `re.sub` for the
four patterns involved (each pattern, when it matches, has a uniquely
determined match length at a given start position).
-/

/-! ### Python character classes (preprocess.py) -/

/-- The whitespace class used by Python's `\s` and `str.strip()` /
`str.split()` (ASCII part; the proofs only use that it is one fixed
decidable class). -/
def isPySpace (c : Char) : Bool :=
  c = ' ' || c = '\t' || c = '\n' || c = '\r' || c = '\x0b' || c = '\x0c'

/-- The class `[\r\n\t]` of `_ctrl_re` in preprocess.py. -/
def isCtrlChar (c : Char) : Bool :=
  c = '\r' || c = '\n' || c = '\t'

/-- Case-insensitive literal test: the first `p.length` characters of `cs`,
lower-cased, are exactly `p` (models `re.IGNORECASE` literal parts). -/
def ciStarts (p cs : List Char) : Bool :=
  decide ((cs.take p.length).map Char.toLower = p)

def httpChars : List Char := ['h', 't', 't', 'p', ':', '/', '/']

def httpsChars : List Char := ['h', 't', 't', 'p', 's', ':', '/', '/']

def wwwChars : List Char := ['w', 'w', 'w', '.']

/-- Length of the maximal `\S+` run at the front of `cs`. -/
def nonSpaceLen (cs : List Char) : Nat :=
  (cs.takeWhile (fun c => !isPySpace c)).length

/-- Match length, at the current position, of
`_url_re = https?://\S+|www\.\S+` (preprocess.py line 31).  A match requires
the literal prefix (case-insensitively) followed by at least one non-space
character; the greedy `\S+` extends the match to the end of the non-space
run. -/
def urlMatchLen (cs : List Char) : Option Nat :=
  if ciStarts httpsChars cs then
    if nonSpaceLen (cs.drop 8) = 0 then none else some (8 + nonSpaceLen (cs.drop 8))
  else if ciStarts httpChars cs then
    if nonSpaceLen (cs.drop 7) = 0 then none else some (7 + nonSpaceLen (cs.drop 7))
  else if ciStarts wwwChars cs then
    if nonSpaceLen (cs.drop 4) = 0 then none else some (4 + nonSpaceLen (cs.drop 4))
  else none

/-- The maximal non-space run at the front of `cs`. -/
def nsRun (cs : List Char) : List Char :=
  cs.takeWhile (fun c => !isPySpace c)

/-- Does the run `R` (a list of non-space characters) contain the email
pattern `\S+@\S+\.\S+` starting at its first character?  Equivalently:
an `'@'` at some index `a ≥ 1` and a `'.'` at some index `b` with
`a + 2 ≤ b` and at least one character after `b`. -/
def emailRunHasPat (R : List Char) : Bool :=
  decide (∃ a ∈ List.range R.length, 1 ≤ a ∧ R.getD a ' ' = '@' ∧
    ∃ b ∈ List.range R.length, a + 2 ≤ b ∧ b + 2 ≤ R.length ∧ R.getD b ' ' = '.')

/-- Match length of `_email_re = \S+@\S+\.\S+` (preprocess.py line 32) at the
current position.  The backtracking greedy match starts at the beginning of
the non-space run and extends to its end. -/
def emailMatchLen (cs : List Char) : Option Nat :=
  if emailRunHasPat (nsRun cs) then some (nsRun cs).length else none

/-- Match length of `_ctrl_re = [\r\n\t]+` (preprocess.py line 33). -/
def ctrlMatchLen (cs : List Char) : Option Nat :=
  if (cs.takeWhile isCtrlChar).length = 0 then none
  else some (cs.takeWhile isCtrlChar).length

/-- Match length of `_multi_space_re = \s{2,}` (preprocess.py line 34);
greedy, so a match covers the whole whitespace run (of length ≥ 2). -/
def multiMatchLen (cs : List Char) : Option Nat :=
  if (cs.takeWhile isPySpace).length < 2 then none
  else some (cs.takeWhile isPySpace).length

/-- `re.sub(pattern, " ", ·)`: scan left to right; at each position, if the
pattern matches (with length `n`), emit a single `' '` and continue after
the match, otherwise keep the character and move on.  `fuel` bounds the
number of scanning steps (it is instantiated with the length of the input,
which always suffices). -/
def scanSubAux (m : List Char → Option Nat) : Nat → List Char → List Char
  | 0, cs => cs
  | _ + 1, [] => []
  | f + 1, c :: cs =>
    match m (c :: cs) with
    | some n => ' ' :: scanSubAux m f (cs.drop (n - 1))
    | none => c :: scanSubAux m f cs

def scanSub (m : List Char → Option Nat) (cs : List Char) : List Char :=
  scanSubAux m cs.length cs

/-- Python `str.strip()`: drop leading and trailing whitespace. -/
def pyStrip (cs : List Char) : List Char :=
  ((cs.dropWhile isPySpace).reverse.dropWhile isPySpace).reverse

/-- `clean_text` on an actual string (preprocess.py lines 39–44): URL
removal, then email removal, then control-character collapse, then
multi-whitespace collapse, then strip. -/
def cleanStr (s : List Char) : List Char :=
  pyStrip (scanSub multiMatchLen (scanSub ctrlMatchLen
    (scanSub emailMatchLen (scanSub urlMatchLen s))))

/-- `clean_text` (preprocess.py lines 36–44): `None`/NaN input yields the
empty string, otherwise the five-step pipeline. -/
def clean_text (s : Option (List Char)) : List Char :=
  match s with
  | none => []
  | some t => cleanStr t

/-- No match of `m` at any position of `t`. -/
def NoMatch (m : List Char → Option Nat) (t : List Char) : Prop :=
  ∀ i, m (t.drop i) = none

/-! ### Sentiment analysis (nlp_pipeline.py / load_to_mongo.py)

The VADER `polarity_scores` aggregation is an external primitive; it is a
parameter `ps` of the functions below, and the lexicon is a parameter
`lex` (an association list token ↦ polarity), matching the spec's treatment
of the scorer's internals as an accepted external contract. -/

structure Scores where
  neg : ℚ
  neu : ℚ
  pos : ℚ
  compound : ℚ
deriving DecidableEq

/-- The fixed neutral scores `{"neg": 0.0, "neu": 1.0, "pos": 0.0,
"compound": 0.0}` (nlp_pipeline.py line 81, load_to_mongo.py line 41). -/
def neutralScores : Scores := ⟨0, 1, 0, 0⟩

/-- `not text or not str(text).strip()` (nlp_pipeline.py line 80): the text
is `None`, empty, or whitespace-only. -/
def isBlank (text : Option (List Char)) : Bool :=
  match text with
  | none => true
  | some s => s.isEmpty || (pyStrip s).isEmpty

/-- The punctuation set stripped from tokens:
`.,!?;:'"()[]` and the two curly braces (nlp_pipeline.py line 98). -/
def punctChars : List Char :=
  ['.', ',', '!', '?', ';', ':', '\'', '"', '(', ')', '[', ']', '\x7b', '\x7d']

/-- Python `str.split()` with no argument: split on whitespace runs,
discarding empty pieces.  `acc` holds the current word, reversed. -/
def pySplitAux : List Char → List Char → List (List Char)
  | [], acc => if acc.isEmpty then [] else [acc.reverse]
  | c :: cs, acc =>
    if isPySpace c then
      if acc.isEmpty then pySplitAux cs [] else acc.reverse :: pySplitAux cs []
    else pySplitAux cs (c :: acc)

def pySplit (s : List Char) : List (List Char) := pySplitAux s []

def pyLower (t : List Char) : List Char := t.map Char.toLower

/-- Python `str.strip(chars)`: remove leading and trailing characters that
belong to `set`. -/
def stripChars (set t : List Char) : List Char :=
  ((t.dropWhile (fun c => decide (c ∈ set))).reverse.dropWhile
    (fun c => decide (c ∈ set))).reverse

/-- `tt in lex` / `lex[tt]` on the lexicon dictionary. -/
def lookupLex (lex : List (List Char × ℚ)) (tt : List Char) : Option ℚ :=
  (lex.find? (fun p => decide (p.1 = tt))).map Prod.snd

/-- The `token_vals` list before sorting (nlp_pipeline.py lines 96–100):
whitespace-split tokens, lower-cased, punctuation-stripped, kept when
present in the lexicon, paired with their lexicon value. -/
def svTokenVals (lex : List (List Char × ℚ)) (s : List Char) :
    List (List Char × ℚ) :=
  (pySplit s).filterMap fun t =>
    let tt := stripChars punctChars (pyLower t)
    (lookupLex lex tt).map fun v => (tt, v)

def absKey (p : List Char × ℚ) : ℚ := |p.2|

/-- Stable insertion into a list sorted by descending `absKey`: the new
element (which comes earlier in the original order) goes before any element
of equal key. -/
def insertDesc (x : List Char × ℚ) : List (List Char × ℚ) → List (List Char × ℚ)
  | [] => [x]
  | y :: ys => if absKey y ≤ absKey x then x :: y :: ys else y :: insertDesc x ys

/-- Stable sort by descending `absKey`, modelling Python's stable
`sorted(token_vals, key=lambda x: -abs(x[1]))` (nlp_pipeline.py line 101). -/
def sortDescAbs : List (List Char × ℚ) → List (List Char × ℚ)
  | [] => []
  | x :: xs => insertDesc x (sortDescAbs xs)

/-- `sentiment_vader` (nlp_pipeline.py lines 79–106): returns
(label, scores, token explanation). -/
def sentiment_vader (ps : List Char → Scores) (lex : List (List Char × ℚ))
    (text : Option (List Char)) : String × Scores × List (List Char × ℚ) :=
  if isBlank text then ("neutral", neutralScores, [])
  else
    let s := text.getD []
    let scores := ps s
    let label :=
      if (0.05 : ℚ) ≤ scores.compound then "positive"
      else if scores.compound ≤ -(0.05 : ℚ) then "negative"
      else "neutral"
    (label, scores, (sortDescAbs (svTokenVals lex s)).take 8)

/-- `analyze_text` (load_to_mongo.py lines 33–52): returns
(language, sentiment, scores).  Language detection is the external
primitive `det` (its failures are already recovered to "unknown" by the
`try`/`except` in the source, so `det` is total). -/
def analyze_text (det : List Char → String) (ps : List Char → Scores)
    (text : Option (List Char)) : String × String × Scores :=
  let lang := if isBlank text then "unknown" else det (text.getD [])
  if isBlank text then (lang, "neutral", neutralScores)
  else
    let scores := ps (text.getD [])
    let sentiment :=
      if (0.05 : ℚ) ≤ scores.compound then "positive"
      else if scores.compound ≤ -(0.05 : ℚ) then "negative"
      else "neutral"
    (lang, sentiment, scores)

/-! ### The document store (MongoDB collection, load_to_mongo.py /
nlp_pipeline.py)

A stored document is a list of (field, value) pairs; a filter
`{field: value}` with `value = None` matches a document where the field is
null *or missing* (MongoDB semantics), so null and missing are collapsed:
`docGet` returns `none` for a missing field and documents never store an
explicit null. -/

/-- The document fields of the primary store.  `TypeCol`/`LabelCol` stand
for the source's `Type`/`Label` columns (capitalised in the CSV);
`text` is the field named by `upsert_records`'s default `by="text"`. -/
inductive MField
  | id_post | texte | TypeCol | LabelCol | text
  | language | sentiment | sentiment_scores | sentiment_tokens
deriving DecidableEq

inductive Value
  | vint (n : Int)
  | vstr (s : List Char)
  | vscores (sc : Scores)
  | vtokens (ts : List (List Char × ℚ))
deriving DecidableEq

abbrev Doc := List (MField × Value)

def docGet (d : Doc) (f : MField) : Option Value :=
  (d.find? (fun p => decide (p.1 = f))).map Prod.snd

/-- A CSV record as selected by
`df[["id_post", "texte", "Type", "Label"]]` (load_to_mongo.py line 96). -/
structure Rec where
  id_post : Option Int
  texte : List Char
  TypeVal : List Char
  LabelVal : List Char
deriving DecidableEq

/-- `r.get(field)` on the record dictionary: `None` for fields the record
does not carry. -/
def recGet (r : Rec) (f : MField) : Option Value :=
  match f with
  | .id_post => r.id_post.map Value.vint
  | .texte => some (Value.vstr r.texte)
  | .TypeCol => some (Value.vstr r.TypeVal)
  | .LabelCol => some (Value.vstr r.LabelVal)
  | _ => none

/-- `int(...)` applied to a key value (load_to_mongo.py line 102): the
identity on integer values; anything else raises, and the `except: pass`
keeps the original value. -/
def pyIntOfValue (v : Value) : Option Value :=
  match v with
  | .vint n => some (.vint n)
  | _ => none

abbrev MKey := MField × Option Value

/-- `key = {by: r.get(by)}` with the `id_post` integer coercion
(load_to_mongo.py lines 99–104). -/
def keyFor (f : MField) (r : Rec) : MKey :=
  match recGet r f with
  | none => (f, none)
  | some v =>
    if f = MField.id_post then
      match pyIntOfValue v with
      | some v' => (f, some v')
      | none => (f, some v)
    else (f, some v)

def matchesKey (k : MKey) (d : Doc) : Bool :=
  decide (docGet d k.1 = k.2)

/-- `coll.replace_one(key, nd, upsert=True)`: replace the first document
matching the filter, or insert `nd` if none matches. -/
def replaceOne (k : MKey) (nd : Doc) : List Doc → List Doc
  | [] => [nd]
  | d :: ds => if matchesKey k d then nd :: ds else d :: replaceOne k nd ds

def countMatches (k : MKey) (store : List Doc) : Nat :=
  (store.filter (fun d => matchesKey k d)).length

/-- The document upserted by `upsert_records` (load_to_mongo.py lines
96–108): the four record fields (a null `id_post` is stored as
null-or-missing) followed by the annotation fields added in place. -/
def buildDoc (det : List Char → String) (ps : List Char → Scores) (r : Rec) : Doc :=
  let a := analyze_text det ps (some r.texte)
  (match r.id_post with
   | some n => [(MField.id_post, Value.vint n)]
   | none => []) ++
  [(MField.texte, Value.vstr r.texte),
   (MField.TypeCol, Value.vstr r.TypeVal),
   (MField.LabelCol, Value.vstr r.LabelVal),
   (MField.language, Value.vstr a.1.toList),
   (MField.sentiment, Value.vstr a.2.1.toList),
   (MField.sentiment_scores, Value.vscores a.2.2)]

/-- One iteration of the upsert loop (load_to_mongo.py lines 98–114). -/
def upsertStep (det : List Char → String) (ps : List Char → Scores)
    (f : MField) (store : List Doc) (r : Rec) : List Doc :=
  replaceOne (keyFor f r) (buildDoc det ps r) store

/-- The upsert loop of `upsert_records` over a record list. -/
def upsert_records (det : List Char → String) (ps : List Char → Scores)
    (f : MField) (store : List Doc) (rs : List Rec) : List Doc :=
  rs.foldl (upsertStep det ps f) store

/-- The function-signature default `by="text"`
(load_to_mongo.py line 84). -/
def upsertDefaultBy : MField := MField.text

/-- The CLI default `--by texte` (load_to_mongo.py line 122). -/
def cliDefaultBy : MField := MField.texte

/-- The per-record identity key of `process_from_csv`'s upsert branch
(nlp_pipeline.py line 149): `id_post` when present and non-null, else
`texte`. -/
def csvUpsertKey (r : Rec) : MKey :=
  match r.id_post with
  | some n => (MField.id_post, some (Value.vint n))
  | none => (MField.texte, some (Value.vstr r.texte))

/-- The key filters used across one `upsert_records` run. -/
def upsertRunKeys (f : MField) (rs : List Rec) : List MKey :=
  rs.map (keyFor f)

/-! ### Duplicate removal (`ensure_unique_index`, load_to_mongo.py lines
55–81)

Documents are (insertion-id, field-value) pairs; the aggregation groups by
the indexed field's value, skips the null group, and for every group with
more than one member deletes all but the first pushed id.  The `$push`
order is the collection's natural (insertion) order, so the survivor is the
earliest-inserted document of its group; documents whose field is null or
missing are all kept. -/

def dedupGo {V : Type} [DecidableEq V] :
    List V → List (Nat × Option V) → List (Nat × Option V)
  | _, [] => []
  | seen, d :: ds =>
    match d.2 with
    | none => d :: dedupGo seen ds
    | some v => if v ∈ seen then dedupGo seen ds else d :: dedupGo (v :: seen) ds

/-- The duplicate-removal effect of `ensure_unique_index` on the stored
documents (the subsequent `create_index` call does not change them, and
its failure is caught). -/
def ensure_unique_index {V : Type} [DecidableEq V]
    (docs : List (Nat × Option V)) : List (Nat × Option V) :=
  dedupGo [] docs

/-- Number of documents deleted by one run of the cleanup. -/
def dedupRemoved {V : Type} [DecidableEq V]
    (docs : List (Nat × Option V)) : Nat :=
  docs.length - (ensure_unique_index docs).length

/-! ### `process_from_mongo` (nlp_pipeline.py lines 158–190) -/

/-- A stored document as seen by the scan: whether the `language` /
`sentiment` fields are present. -/
structure MDoc where
  oid : Nat
  hasLanguage : Bool
  hasSentiment : Bool
deriving DecidableEq

/-- The scan loop: `total` is incremented for every fetched document
*before* the sample-limit check (`if sample and total > sample: break`,
lines 167–169); `updated` counts documents that needed annotation.
`sample = 0` is falsy (no limit). -/
def process_from_mongo_go (force : Bool) (sample : Nat) :
    Nat → Nat → List MDoc → Nat × Nat
  | total, updated, [] => (total, updated)
  | total, updated, d :: ds =>
    let t := total + 1
    if sample ≠ 0 ∧ sample < t then (t, updated)
    else if force || !d.hasLanguage || !d.hasSentiment then
      process_from_mongo_go force sample t (updated + 1) ds
    else process_from_mongo_go force sample t updated ds

/-- `process_from_mongo` returns `{"scanned": total, "updated": updated}`. -/
def process_from_mongo (force : Bool) (sample : Nat) (docs : List MDoc) :
    Nat × Nat :=
  process_from_mongo_go force sample 0 0 docs

/-! ### Index sync (mongo_to_es.py lines 71–78) -/

/-- Outcome of submitting one batch of up to `chunk_size` actions.
Modelled from the spec: the internals of `elasticsearch.helpers.bulk` are
not part of this repository; per its contract in the spec, each batch
submission either yields a success count together with the failure causes
of that batch, or the transport itself is unusable. -/
inductive BatchResult
  | ok (nSuccess : Nat) (errs : List String)
  | transportDown
deriving DecidableEq

/-- Modelled from the spec: `helpers.bulk` iterates over the batches,
accumulating the success count and the failure causes, and raises only
when the transport is unusable (`none`). -/
def bulkHelper : List BatchResult → Option (Nat × List String)
  | [] => some (0, [])
  | BatchResult.ok n es :: rest =>
    match bulkHelper rest with
    | some (m, fs) => some (n + m, es ++ fs)
    | none => none
  | BatchResult.transportDown :: _ => none

/-- The sync wrapper (mongo_to_es.py lines 71–78): on a raising bulk call,
print and `sys.exit(1)` (`none`); otherwise report the success count, the
failure count and the bounded sample `errors[:3]` of causes. -/
def syncRun (batches : List BatchResult) : Option (Nat × Nat × List String) :=
  match bulkHelper batches with
  | none => none
  | some (succ, errs) => some (succ, errs.length, errs.take 3)

/-- Total successes across all batches. -/
def okTotal : List BatchResult → Nat
  | [] => 0
  | BatchResult.ok n _ :: rest => n + okTotal rest
  | BatchResult.transportDown :: rest => okTotal rest

/-- All failure causes across all batches, in order. -/
def errsTotal : List BatchResult → List String
  | [] => []
  | BatchResult.ok _ es :: rest => es ++ errsTotal rest
  | BatchResult.transportDown :: rest => errsTotal rest

/-! ## Lemmas: the `re.sub` scanner -/

theorem scanSubAux_nil (m : List Char → Option Nat) (f : Nat) :
    scanSubAux m f [] = [] := by
  cases f <;> rfl

theorem scan_pfx (m : List Char → Option Nat) :
    ∀ (f : Nat) (cs u : List Char), u <+: scanSubAux m f cs → ' ' ∉ u → u <+: cs := by
  intro f
  induction f with
  | zero => intro cs u h _; simpa [scanSubAux] using h
  | succ f ih =>
    intro cs u h hsp
    cases cs with
    | nil => simpa [scanSubAux] using h
    | cons c cs' =>
      simp only [scanSubAux] at h
      cases hm : m (c :: cs') with
      | some n =>
        rw [hm] at h
        rcases List.prefix_cons_iff.mp h with h0 | ⟨t, rfl, _⟩
        · exact h0 ▸ List.nil_prefix
        · exact absurd (List.mem_cons_self _ _) hsp
      | none =>
        rw [hm] at h
        rcases List.prefix_cons_iff.mp h with h0 | ⟨t, rfl, ht⟩
        · exact h0 ▸ List.nil_prefix
        · exact List.cons_prefix_cons.mpr
            ⟨rfl, ih cs' t ht (fun hx => hsp (List.mem_cons_of_mem _ hx))⟩

theorem scan_ifx (m : List Char → Option Nat) :
    ∀ (f : Nat) (cs u : List Char), u <:+: scanSubAux m f cs → ' ' ∉ u → u <:+: cs := by
  intro f
  induction f with
  | zero => intro cs u h _; simpa [scanSubAux] using h
  | succ f ih =>
    intro cs u h hsp
    cases cs with
    | nil => simpa [scanSubAux] using h
    | cons c cs' =>
      simp only [scanSubAux] at h
      cases hm : m (c :: cs') with
      | some n =>
        rw [hm] at h
        rcases List.infix_cons_iff.mp h with h0 | h1
        · rcases List.prefix_cons_iff.mp h0 with h2 | ⟨t, rfl, _⟩
          · exact h2 ▸ List.nil_infix
          · exact absurd (List.mem_cons_self _ _) hsp
        · have h2 : u <:+: cs'.drop (n - 1) := ih _ u h1 hsp
          exact List.infix_cons (h2.trans (List.drop_suffix _ _).isInfix)
      | none =>
        rw [hm] at h
        rcases List.infix_cons_iff.mp h with h0 | h1
        · rcases List.prefix_cons_iff.mp h0 with h2 | ⟨t, rfl, ht⟩
          · exact h2 ▸ List.nil_infix
          · have h3 : t <+: cs' := scan_pfx m f cs' t ht
              (fun hx => hsp (List.mem_cons_of_mem _ hx))
            exact (List.cons_prefix_cons.mpr ⟨rfl, h3⟩).isInfix
        · exact List.infix_cons (ih _ u h1 hsp)

theorem scan_mem (m : List Char → Option Nat) :
    ∀ (f : Nat) (cs : List Char) (c : Char),
      c ∈ scanSubAux m f cs → c ∈ cs ∨ c = ' ' := by
  intro f
  induction f with
  | zero => intro cs c h; rw [scanSubAux] at h; exact Or.inl h
  | succ f ih =>
    intro cs c h
    cases cs with
    | nil => rw [scanSubAux_nil] at h; cases h
    | cons a cs' =>
      simp only [scanSubAux] at h
      cases hm : m (a :: cs') with
      | some n =>
        rw [hm] at h
        rcases List.mem_cons.mp h with rfl | h1
        · exact Or.inr rfl
        · rcases ih _ c h1 with h2 | h2
          · exact Or.inl (List.mem_cons_of_mem _ ((List.drop_suffix _ _).subset h2))
          · exact Or.inr h2
      | none =>
        rw [hm] at h
        rcases List.mem_cons.mp h with rfl | h1
        · exact Or.inl (List.mem_cons_self _ _)
        · rcases ih _ c h1 with h2 | h2
          · exact Or.inl (List.mem_cons_of_mem _ h2)
          · exact Or.inr h2

theorem noMatch_nil (m : List Char → Option Nat) (h : m [] = none) : NoMatch m [] := by
  intro i; simpa using h

theorem noMatch_cons {m : List Char → Option Nat} {c : Char} {cs : List Char}
    (h0 : m (c :: cs) = none) (h : NoMatch m cs) : NoMatch m (c :: cs) := by
  intro i
  cases i with
  | zero => simpa using h0
  | succ j => simpa [List.drop_succ_cons] using h j

theorem noMatch_head {m : List Char → Option Nat} {c : Char} {cs : List Char}
    (h : NoMatch m (c :: cs)) : m (c :: cs) = none := by
  simpa using h 0

theorem noMatch_tail {m : List Char → Option Nat} {c : Char} {cs : List Char}
    (h : NoMatch m (c :: cs)) : NoMatch m cs := by
  intro i; simpa [List.drop_succ_cons] using h (i + 1)

theorem scan_id_of_noMatch (m : List Char → Option Nat) :
    ∀ (f : Nat) (cs : List Char), NoMatch m cs → scanSubAux m f cs = cs := by
  intro f
  induction f with
  | zero => intro cs _; rfl
  | succ f ih =>
    intro cs h
    cases cs with
    | nil => exact scanSubAux_nil m _
    | cons c cs' =>
      simp only [scanSubAux]
      rw [noMatch_head h]
      rw [ih cs' (noMatch_tail h)]

theorem exists_drop_of_ifx {w cs : List Char} (h : w <:+: cs) :
    ∃ j, w <+: cs.drop j := by
  obtain ⟨s, t, rfl⟩ := h
  refine ⟨s.length, ?_⟩
  rw [List.append_assoc, List.drop_left]
  exact List.prefix_append w t

/-! ## Lemmas: the URL matcher -/

theorem ciStarts_true_iff {p cs : List Char} :
    ciStarts p cs = true ↔ (cs.take p.length).map Char.toLower = p := by
  simp [ciStarts]

theorem ciStarts_cons_false {p0 c : Char} {p cs : List Char}
    (h : Char.toLower c ≠ p0) : ciStarts (p0 :: p) (c :: cs) = false := by
  simp [ciStarts, List.take_succ_cons, h]

theorem urlMatchLen_space (r : List Char) : urlMatchLen (' ' :: r) = none := by
  have h1 : ciStarts httpsChars (' ' :: r) = false := by
    rw [httpsChars]; exact ciStarts_cons_false (by decide)
  have h2 : ciStarts httpChars (' ' :: r) = false := by
    rw [httpChars]; exact ciStarts_cons_false (by decide)
  have h3 : ciStarts wwwChars (' ' :: r) = false := by
    rw [wwwChars]; exact ciStarts_cons_false (by decide)
  simp [urlMatchLen, h1, h2, h3]

theorem exists_head_of_nonSpaceLen {l : List Char} (h : nonSpaceLen l ≠ 0) :
    ∃ d r, l = d :: r ∧ isPySpace d = false := by
  cases l with
  | nil => simp [nonSpaceLen] at h
  | cons d r =>
    refine ⟨d, r, rfl, ?_⟩
    by_contra hd
    have hd' : isPySpace d = true := by
      cases hh : isPySpace d
      · exact absurd hh hd
      · rfl
    simp [nonSpaceLen, List.takeWhile_cons, hd'] at h

theorem nonSpaceLen_cons_pos {d : Char} {r : List Char} (hd : isPySpace d = false) :
    nonSpaceLen (d :: r) ≠ 0 := by
  simp [nonSpaceLen, List.takeWhile_cons, hd]

/-- The shape of a URL-pattern witness. -/
def UrlSeed (p : List Char) (d : Char) : Prop :=
  (p.map Char.toLower = httpsChars ∨ p.map Char.toLower = httpChars ∨
    p.map Char.toLower = wwwChars) ∧ isPySpace d = false

theorem urlMatchLen_isSome_iff {cs : List Char} :
    (urlMatchLen cs).isSome = true ↔
      ∃ p d, UrlSeed p d ∧ (p ++ [d]) <+: cs := by
  constructor
  · intro h
    rw [urlMatchLen] at h
    by_cases h1 : ciStarts httpsChars cs = true
    · rw [if_pos h1] at h
      have hp := ciStarts_true_iff.mp h1
      by_cases h0 : nonSpaceLen (cs.drop 8) = 0
      · rw [if_pos h0] at h; cases h
      · obtain ⟨d, r, hdr, hd⟩ := exists_head_of_nonSpaceLen h0
        refine ⟨cs.take 8, d, ⟨Or.inl hp, hd⟩, ?_⟩
        have : cs = cs.take 8 ++ cs.drop 8 := (List.take_append_drop 8 cs).symm
        rw [hdr] at this
        refine ⟨r, ?_⟩
        rw [List.append_assoc, List.singleton_append]
        exact this.symm
    · rw [if_neg h1] at h
      by_cases h2 : ciStarts httpChars cs = true
      · rw [if_pos h2] at h
        have hp := ciStarts_true_iff.mp h2
        by_cases h0 : nonSpaceLen (cs.drop 7) = 0
        · rw [if_pos h0] at h; cases h
        · obtain ⟨d, r, hdr, hd⟩ := exists_head_of_nonSpaceLen h0
          refine ⟨cs.take 7, d, ⟨Or.inr (Or.inl hp), hd⟩, ?_⟩
          have : cs = cs.take 7 ++ cs.drop 7 := (List.take_append_drop 7 cs).symm
          rw [hdr] at this
          refine ⟨r, ?_⟩
          rw [List.append_assoc, List.singleton_append]
          exact this.symm
      · rw [if_neg h2] at h
        by_cases h3 : ciStarts wwwChars cs = true
        · rw [if_pos h3] at h
          have hp := ciStarts_true_iff.mp h3
          by_cases h0 : nonSpaceLen (cs.drop 4) = 0
          · rw [if_pos h0] at h; cases h
          · obtain ⟨d, r, hdr, hd⟩ := exists_head_of_nonSpaceLen h0
            refine ⟨cs.take 4, d, ⟨Or.inr (Or.inr hp), hd⟩, ?_⟩
            have : cs = cs.take 4 ++ cs.drop 4 := (List.take_append_drop 4 cs).symm
            rw [hdr] at this
            refine ⟨r, ?_⟩
            rw [List.append_assoc, List.singleton_append]
            exact this.symm
        · rw [if_neg h3] at h; cases h
  · rintro ⟨p, d, ⟨hp, hd⟩, hpre⟩
    obtain ⟨rest, hrest⟩ := hpre
    rw [List.append_assoc] at hrest
    have hcs : cs = p ++ (d :: rest) := by simpa using hrest.symm
    have hptake : ∀ k : Nat, k = p.length → cs.take k = p := by
      intro k hk
      rw [hcs, hk, List.take_left]
    have hpdrop : ∀ k : Nat, k = p.length → cs.drop k = d :: rest := by
      intro k hk
      rw [hcs, hk, List.drop_left]
    rcases hp with hp | hp | hp
    · have hlen : p.length = 8 := by
        have := congrArg List.length hp
        simpa [httpsChars] using this
      have h1 : ciStarts httpsChars cs = true := by
        rw [ciStarts_true_iff]
        have : (8 : Nat) = httpsChars.length := rfl
        rw [← this, hptake 8 hlen.symm, hp]
      rw [urlMatchLen, if_pos h1, hpdrop 8 hlen.symm]
      rw [if_neg (nonSpaceLen_cons_pos hd)]
      rfl
    · have hlen : p.length = 7 := by
        have := congrArg List.length hp
        simpa [httpChars] using this
      have h1 : ciStarts httpsChars cs = false := by
        by_contra hcontra
        have h1' : ciStarts httpsChars cs = true := by
          cases hh : ciStarts httpsChars cs
          · exact absurd hh hcontra
          · rfl
        have hs := ciStarts_true_iff.mp h1'
        have h7 : (cs.take 8).take 7 = cs.take 7 := by
          simp [List.take_take]
        have : httpsChars.take 7 = (cs.take 7).map Char.toLower := by
          have hs8 : (8 : Nat) = httpsChars.length := rfl
          rw [← hs, ← hs8, ← List.map_take, h7]
        rw [hptake 7 hlen.symm, hp] at this
        rw [httpsChars, httpChars] at this
        simp at this
      have h2 : ciStarts httpChars cs = true := by
        rw [ciStarts_true_iff]
        have : (7 : Nat) = httpChars.length := rfl
        rw [← this, hptake 7 hlen.symm, hp]
      rw [urlMatchLen, if_neg (by simp [h1]), if_pos h2, hpdrop 7 hlen.symm]
      rw [if_neg (nonSpaceLen_cons_pos hd)]
      rfl
    · have hlen : p.length = 4 := by
        have := congrArg List.length hp
        simpa [wwwChars] using this
      have hw : (cs.take 4).map Char.toLower = wwwChars := by
        rw [hptake 4 hlen.symm, hp]
      have h1 : ciStarts httpsChars cs = false := by
        by_contra hcontra
        have h1' : ciStarts httpsChars cs = true := by
          cases hh : ciStarts httpsChars cs
          · exact absurd hh hcontra
          · rfl
        have hs := ciStarts_true_iff.mp h1'
        have h4 : (cs.take 8).take 4 = cs.take 4 := by
          simp [List.take_take]
        have : httpsChars.take 4 = wwwChars := by
          have hs8 : (8 : Nat) = httpsChars.length := rfl
          rw [← hw, ← hs, ← hs8, ← List.map_take, h4]
        rw [httpsChars, wwwChars] at this
        simp at this
      have h2 : ciStarts httpChars cs = false := by
        by_contra hcontra
        have h2' : ciStarts httpChars cs = true := by
          cases hh : ciStarts httpChars cs
          · exact absurd hh hcontra
          · rfl
        have hs := ciStarts_true_iff.mp h2'
        have h4 : (cs.take 7).take 4 = cs.take 4 := by
          simp [List.take_take]
        have : httpChars.take 4 = wwwChars := by
          have hs7 : (7 : Nat) = httpChars.length := rfl
          rw [← hw, ← hs, ← hs7, ← List.map_take, h4]
        rw [httpChars, wwwChars] at this
        simp at this
      have h3 : ciStarts wwwChars cs = true := by
        rw [ciStarts_true_iff]
        have : (4 : Nat) = wwwChars.length := rfl
        rw [← this, hptake 4 hlen.symm, hp]
      rw [urlMatchLen, if_neg (by simp [h1]), if_neg (by simp [h2]), if_pos h3,
        hpdrop 4 hlen.symm]
      rw [if_neg (nonSpaceLen_cons_pos hd)]
      rfl

theorem url_seed_no_space {p : List Char} {d : Char} (h : UrlSeed p d) :
    ' ' ∉ p ++ [d] := by
  intro hmem
  rcases List.mem_append.mp hmem with hmem | hmem
  · have hlow : Char.toLower ' ' ∈ p.map Char.toLower :=
      List.mem_map_of_mem Char.toLower hmem
    rcases h.1 with hp | hp | hp <;> rw [hp] at hlow <;>
      first
        | exact absurd hlow (by rw [httpsChars]; decide)
        | exact absurd hlow (by rw [httpChars]; decide)
        | exact absurd hlow (by rw [wwwChars]; decide)
  · have : ' ' = d := by simpa using hmem
    rw [← this] at h
    exact absurd h.2 (by decide)

theorem urlMatchLen_none_of_transfer {c : Char} {cs out : List Char}
    (hpfx : ∀ u, u <+: out → ' ' ∉ u → u <+: cs)
    (h : urlMatchLen (c :: cs) = none) : urlMatchLen (c :: out) = none := by
  by_contra hcontra
  have hsome : (urlMatchLen (c :: out)).isSome = true := by
    cases hh : urlMatchLen (c :: out)
    · exact absurd hh hcontra
    · rfl
  obtain ⟨p, d, hseed, hpre⟩ := urlMatchLen_isSome_iff.mp hsome
  have hp_ne : p ≠ [] := by
    rcases hseed.1 with hp | hp | hp <;> intro hnil <;> rw [hnil] at hp <;>
      first
        | exact absurd hp (by rw [httpsChars]; decide)
        | exact absurd hp (by rw [httpChars]; decide)
        | exact absurd hp (by rw [wwwChars]; decide)
  obtain ⟨c0, p', rfl⟩ := List.exists_cons_of_ne_nil hp_ne
  have hcc : c0 = c ∧ (p' ++ [d]) <+: out := by
    have := hpre
    rw [List.cons_append] at this
    exact List.cons_prefix_cons.mp this
  have hnosp : ' ' ∉ p' ++ [d] := by
    intro hmem
    exact url_seed_no_space hseed (by
      rw [List.cons_append]
      exact List.mem_cons_of_mem _ hmem)
  have hpcs : (p' ++ [d]) <+: cs := hpfx _ hcc.2 hnosp
  have : (urlMatchLen (c :: cs)).isSome = true := by
    rw [urlMatchLen_isSome_iff]
    refine ⟨c0 :: p', d, hseed, ?_⟩
    rw [List.cons_append]
    exact List.cons_prefix_cons.mpr ⟨hcc.1.symm ▸ rfl, hpcs⟩
  rw [h] at this
  cases this

/-! ## Lemmas: the email matcher -/

theorem emailRunHasPat_iff {R : List Char} :
    emailRunHasPat R = true ↔
      ∃ a, a < R.length ∧ 1 ≤ a ∧ R.getD a ' ' = '@' ∧
        ∃ b, b < R.length ∧ a + 2 ≤ b ∧ b + 2 ≤ R.length ∧ R.getD b ' ' = '.' := by
  rw [emailRunHasPat, decide_eq_true_eq]
  simp only [List.mem_range]

theorem emailRunHasPat_mono {R R' : List Char} (hpre : R <+: R')
    (h : emailRunHasPat R = true) : emailRunHasPat R' = true := by
  obtain ⟨t, rfl⟩ := hpre
  obtain ⟨a, ha, h1, h2, b, hb, h3, h4, h5⟩ := emailRunHasPat_iff.mp h
  have hlen : R.length ≤ (R ++ t).length := by simp
  refine emailRunHasPat_iff.mpr
    ⟨a, lt_of_lt_of_le ha hlen, h1, ?_, b, lt_of_lt_of_le hb hlen, h3,
      le_trans h4 hlen, ?_⟩
  · rw [List.getD_append _ _ _ _ ha]; exact h2
  · rw [List.getD_append _ _ _ _ hb]; exact h5

theorem emailMatchLen_none_iff {cs : List Char} :
    emailMatchLen cs = none ↔ emailRunHasPat (nsRun cs) = false := by
  rw [emailMatchLen]
  cases hp : emailRunHasPat (nsRun cs) <;> simp [hp]

theorem emailMatchLen_space (r : List Char) : emailMatchLen (' ' :: r) = none := by
  rw [emailMatchLen_none_iff]
  have : nsRun (' ' :: r) = [] := by
    rw [nsRun, List.takeWhile_cons]
    simp [isPySpace]
  rw [this]
  rfl

theorem pfx_takeWhile {q : Char → Bool} {u l : List Char} (h : u <+: l)
    (hall : ∀ x ∈ u, q x = true) : u <+: l.takeWhile q := by
  obtain ⟨t, rfl⟩ := h
  have hu : u.takeWhile q = u :=
    List.takeWhile_eq_self_iff.mpr (by intro x hx; simp [hall x hx])
  rw [List.takeWhile_append, hu, if_pos rfl]
  exact List.prefix_append u _

theorem nsRun_no_space {cs : List Char} : ' ' ∉ nsRun cs := by
  intro hmem
  rw [nsRun] at hmem
  have := List.mem_takeWhile_imp hmem
  simp [isPySpace] at this

theorem nsRun_all {cs : List Char} : ∀ x ∈ nsRun cs, (!isPySpace x) = true := by
  intro x hx
  rw [nsRun] at hx
  simpa using List.mem_takeWhile_imp hx

theorem emailMatchLen_none_of_transfer {c : Char} {cs out : List Char}
    (hpfx : ∀ u, u <+: out → ' ' ∉ u → u <+: cs)
    (h : emailMatchLen (c :: cs) = none) : emailMatchLen (c :: out) = none := by
  rw [emailMatchLen_none_iff]
  by_contra hc
  have hpat : emailRunHasPat (nsRun (c :: out)) = true := by
    cases hh : emailRunHasPat (nsRun (c :: out))
    · exact absurd hh hc
    · rfl
  cases hspc : isPySpace c with
  | true =>
    have : nsRun (c :: out) = [] := by
      rw [nsRun, List.takeWhile_cons]
      simp [hspc]
    rw [this] at hpat
    exact absurd hpat (by decide)
  | false =>
    have hout : nsRun (c :: out) = c :: nsRun out := by
      rw [nsRun, List.takeWhile_cons]
      simp [hspc, nsRun]
    have hcs' : nsRun (c :: cs) = c :: nsRun cs := by
      rw [nsRun, List.takeWhile_cons]
      simp [hspc, nsRun]
    have hpw : nsRun out <+: out := by
      rw [nsRun]
      exact List.takeWhile_prefix _
    have h1 : nsRun out <+: cs := hpfx _ hpw nsRun_no_space
    have h2 : nsRun out <+: nsRun cs := pfx_takeWhile h1 nsRun_all
    have h3 : nsRun (c :: out) <+: nsRun (c :: cs) := by
      rw [hout, hcs']
      exact List.cons_prefix_cons.mpr ⟨rfl, h2⟩
    have h4 : emailRunHasPat (nsRun (c :: cs)) = true :=
      emailRunHasPat_mono h3 hpat
    rw [emailMatchLen_none_iff] at h
    rw [h] at h4
    cases h4

/-! ## Lemmas: the control-character and multi-space matchers -/

theorem ctrl_none_of_head {c : Char} (r : List Char) (h : isCtrlChar c = false) :
    ctrlMatchLen (c :: r) = none := by
  simp [ctrlMatchLen, List.takeWhile_cons, h]

theorem ctrl_head_false {c : Char} {r : List Char} (h : ctrlMatchLen (c :: r) = none) :
    isCtrlChar c = false := by
  cases hc : isCtrlChar c
  · rfl
  · rw [ctrlMatchLen] at h
    simp [List.takeWhile_cons, hc] at h

theorem multiMatchLen_some_elim {cs : List Char} {n : Nat}
    (h : multiMatchLen cs = some n) :
    n = (cs.takeWhile isPySpace).length ∧ 2 ≤ n := by
  rw [multiMatchLen] at h
  by_cases h2 : (cs.takeWhile isPySpace).length < 2
  · rw [if_pos h2] at h; cases h
  · rw [if_neg h2] at h
    injection h with h
    exact ⟨h.symm, h ▸ Nat.le_of_not_lt h2⟩

theorem multi_none_of_head {c : Char} (r : List Char) (h : isPySpace c = false) :
    multiMatchLen (c :: r) = none := by
  simp [multiMatchLen, List.takeWhile_cons, h]

theorem multi_none_head2 {c : Char} {out : List Char}
    (h : out = [] ∨ ∃ d t, out = d :: t ∧ isPySpace d = false) :
    multiMatchLen (c :: out) = none := by
  rcases h with rfl | ⟨d, t, rfl, hd⟩
  · rw [multiMatchLen]
    cases hc : isPySpace c <;> simp [List.takeWhile_cons, hc]
  · rw [multiMatchLen]
    cases hc : isPySpace c <;> simp [List.takeWhile_cons, hc, hd]

/-! ## Lemmas: a full pass leaves no residual match of its own pattern -/

theorem url_noMatch : ∀ (f : Nat) (cs : List Char), cs.length ≤ f →
    NoMatch urlMatchLen (scanSubAux urlMatchLen f cs) := by
  intro f
  induction f with
  | zero =>
    intro cs hcs
    have : cs = [] := List.length_eq_zero.mp (Nat.le_zero.mp hcs)
    subst this
    exact noMatch_nil _ (by decide)
  | succ f ih =>
    intro cs hcs
    cases cs with
    | nil => rw [scanSubAux_nil]; exact noMatch_nil _ (by decide)
    | cons c cs' =>
      have hlen : cs'.length ≤ f := by simp at hcs; omega
      simp only [scanSubAux]
      cases hm : urlMatchLen (c :: cs') with
      | some n =>
        exact noMatch_cons (urlMatchLen_space _)
          (ih _ (le_trans (by rw [List.length_drop]; omega) hlen))
      | none =>
        exact noMatch_cons
          (urlMatchLen_none_of_transfer (fun u hu hsp => scan_pfx _ f cs' u hu hsp) hm)
          (ih cs' hlen)

theorem email_noMatch : ∀ (f : Nat) (cs : List Char), cs.length ≤ f →
    NoMatch emailMatchLen (scanSubAux emailMatchLen f cs) := by
  intro f
  induction f with
  | zero =>
    intro cs hcs
    have : cs = [] := List.length_eq_zero.mp (Nat.le_zero.mp hcs)
    subst this
    exact noMatch_nil _ (by decide)
  | succ f ih =>
    intro cs hcs
    cases cs with
    | nil => rw [scanSubAux_nil]; exact noMatch_nil _ (by decide)
    | cons c cs' =>
      have hlen : cs'.length ≤ f := by simp at hcs; omega
      simp only [scanSubAux]
      cases hm : emailMatchLen (c :: cs') with
      | some n =>
        exact noMatch_cons (emailMatchLen_space _)
          (ih _ (le_trans (by rw [List.length_drop]; omega) hlen))
      | none =>
        exact noMatch_cons
          (emailMatchLen_none_of_transfer (fun u hu hsp => scan_pfx _ f cs' u hu hsp) hm)
          (ih cs' hlen)

theorem ctrl_noMatch : ∀ (f : Nat) (cs : List Char), cs.length ≤ f →
    NoMatch ctrlMatchLen (scanSubAux ctrlMatchLen f cs) := by
  intro f
  induction f with
  | zero =>
    intro cs hcs
    have : cs = [] := List.length_eq_zero.mp (Nat.le_zero.mp hcs)
    subst this
    exact noMatch_nil _ (by decide)
  | succ f ih =>
    intro cs hcs
    cases cs with
    | nil => rw [scanSubAux_nil]; exact noMatch_nil _ (by decide)
    | cons c cs' =>
      have hlen : cs'.length ≤ f := by simp at hcs; omega
      simp only [scanSubAux]
      cases hm : ctrlMatchLen (c :: cs') with
      | some n =>
        exact noMatch_cons (ctrl_none_of_head _ (by decide))
          (ih _ (le_trans (by rw [List.length_drop]; omega) hlen))
      | none =>
        exact noMatch_cons (ctrl_none_of_head _ (ctrl_head_false hm)) (ih cs' hlen)

theorem scan_multi_head (f : Nat) (c : Char) (cs : List Char)
    (h : isPySpace c = false) :
    ∃ t, scanSubAux multiMatchLen f (c :: cs) = c :: t := by
  cases f with
  | zero => exact ⟨cs, rfl⟩
  | succ f =>
    have hm : multiMatchLen (c :: cs) = none := multi_none_of_head _ h
    simp only [scanSubAux]
    rw [hm]
    exact ⟨_, rfl⟩

theorem multi_noMatch : ∀ (f : Nat) (cs : List Char), cs.length ≤ f →
    NoMatch multiMatchLen (scanSubAux multiMatchLen f cs) := by
  intro f
  induction f with
  | zero =>
    intro cs hcs
    have : cs = [] := List.length_eq_zero.mp (Nat.le_zero.mp hcs)
    subst this
    exact noMatch_nil _ (by decide)
  | succ f ih =>
    intro cs hcs
    cases cs with
    | nil => rw [scanSubAux_nil]; exact noMatch_nil _ (by decide)
    | cons c cs' =>
      have hlen : cs'.length ≤ f := by simp at hcs; omega
      simp only [scanSubAux]
      cases hm : multiMatchLen (c :: cs') with
      | some n =>
        obtain ⟨hn, hn2⟩ := multiMatchLen_some_elim hm
        have hdropped : cs'.drop (n - 1) = (c :: cs').dropWhile isPySpace := by
          have hstep : cs'.drop (n - 1) = (c :: cs').drop n := by
            cases n with
            | zero => exact absurd hn2 (by decide)
            | succ k => simp [List.drop_succ_cons]
          rw [hstep]
          conv_lhs => rw [← List.takeWhile_append_dropWhile (p := isPySpace) (l := c :: cs')]
          rw [List.drop_left' hn.symm]
        refine noMatch_cons ?_
          (ih _ (le_trans (by rw [List.length_drop]; omega) hlen))
        apply multi_none_head2
        cases hdw : (c :: cs').dropWhile isPySpace with
        | nil =>
          left
          rw [hdropped, hdw, scanSubAux_nil]
        | cons d t =>
          right
          have hd : isPySpace d = false := by
            have hh := List.head?_dropWhile_not isPySpace (c :: cs')
            rw [hdw] at hh
            simpa using hh
          obtain ⟨t', ht'⟩ := scan_multi_head f d t hd
          refine ⟨d, t', ?_, hd⟩
          rw [hdropped, hdw, ht']
      | none =>
        refine noMatch_cons ?_ (ih cs' hlen)
        cases hc : isPySpace c with
        | false => exact multi_none_of_head _ hc
        | true =>
          apply multi_none_head2
          have htw : (cs'.takeWhile isPySpace).length = 0 := by
            rw [multiMatchLen] at hm
            by_cases h2 : ((c :: cs').takeWhile isPySpace).length < 2
            · rw [List.takeWhile_cons_of_pos hc] at h2
              simp at h2
              omega
            · rw [if_neg h2] at hm; cases hm
          have htw' : cs'.takeWhile isPySpace = [] := List.length_eq_zero.mp htw
          cases hcs' : cs' with
          | nil => left; rw [scanSubAux_nil]
          | cons d t =>
            right
            have hd : isPySpace d = false := by
              cases hdd : isPySpace d
              · rfl
              · rw [hcs', List.takeWhile_cons_of_pos hdd] at htw'
                cases htw'
            obtain ⟨t', ht'⟩ := scan_multi_head f d t hd
            exact ⟨d, t', ht', hd⟩

/-! ## Lemmas: absence of matches is preserved by later passes -/

theorem noMatch_url_scan (m : List Char → Option Nat) (f : Nat) {cs : List Char}
    (h : NoMatch urlMatchLen cs) : NoMatch urlMatchLen (scanSubAux m f cs) := by
  intro i
  by_contra hc
  have hsome : (urlMatchLen ((scanSubAux m f cs).drop i)).isSome = true := by
    cases hh : urlMatchLen ((scanSubAux m f cs).drop i)
    · exact absurd hh hc
    · rfl
  obtain ⟨p, d, hseed, hpre⟩ := urlMatchLen_isSome_iff.mp hsome
  have hifx : (p ++ [d]) <:+: scanSubAux m f cs :=
    List.infix_iff_prefix_suffix.mpr ⟨_, hpre, List.drop_suffix i _⟩
  have hifx2 : (p ++ [d]) <:+: cs := scan_ifx m f cs _ hifx (url_seed_no_space hseed)
  obtain ⟨j, hj⟩ := exists_drop_of_ifx hifx2
  have : (urlMatchLen (cs.drop j)).isSome = true :=
    urlMatchLen_isSome_iff.mpr ⟨p, d, hseed, hj⟩
  rw [h j] at this
  cases this

theorem noMatch_url_of_ifx {t u : List Char} (hifx : u <:+: t)
    (h : NoMatch urlMatchLen t) : NoMatch urlMatchLen u := by
  intro i
  by_contra hc
  have hsome : (urlMatchLen (u.drop i)).isSome = true := by
    cases hh : urlMatchLen (u.drop i)
    · exact absurd hh hc
    · rfl
  obtain ⟨p, d, hseed, hpre⟩ := urlMatchLen_isSome_iff.mp hsome
  have hifx2 : (p ++ [d]) <:+: t :=
    (List.infix_iff_prefix_suffix.mpr ⟨_, hpre, List.drop_suffix i _⟩).trans hifx
  obtain ⟨j, hj⟩ := exists_drop_of_ifx hifx2
  have : (urlMatchLen (t.drop j)).isSome = true :=
    urlMatchLen_isSome_iff.mpr ⟨p, d, hseed, hj⟩
  rw [h j] at this
  cases this

theorem email_witness {v : List Char} (h : emailMatchLen v ≠ none) :
    emailRunHasPat (nsRun v) = true := by
  cases hh : emailRunHasPat (nsRun v)
  · exact absurd (emailMatchLen_none_iff.mpr hh) h
  · rfl

theorem email_some_of_runpfx {w v : List Char} (hw : emailRunHasPat w = true)
    (hall : ∀ x ∈ w, (!isPySpace x) = true) (hpre : w <+: v) :
    emailMatchLen v ≠ none := by
  intro hnone
  have h1 : w <+: nsRun v := by
    rw [nsRun]
    exact pfx_takeWhile hpre hall
  have h2 : emailRunHasPat (nsRun v) = true := emailRunHasPat_mono h1 hw
  rw [emailMatchLen_none_iff] at hnone
  rw [hnone] at h2
  cases h2

theorem noMatch_email_scan (m : List Char → Option Nat) (f : Nat) {cs : List Char}
    (h : NoMatch emailMatchLen cs) : NoMatch emailMatchLen (scanSubAux m f cs) := by
  intro i
  by_contra hc
  have hpat := email_witness hc
  have hpre : nsRun ((scanSubAux m f cs).drop i) <+: (scanSubAux m f cs).drop i := by
    rw [nsRun]
    exact List.takeWhile_prefix _
  have hifx : nsRun ((scanSubAux m f cs).drop i) <:+: scanSubAux m f cs :=
    List.infix_iff_prefix_suffix.mpr ⟨_, hpre, List.drop_suffix i _⟩
  have hifx2 : nsRun ((scanSubAux m f cs).drop i) <:+: cs :=
    scan_ifx m f cs _ hifx nsRun_no_space
  obtain ⟨j, hj⟩ := exists_drop_of_ifx hifx2
  exact email_some_of_runpfx hpat nsRun_all hj (h j)

theorem noMatch_email_of_ifx {t u : List Char} (hifx : u <:+: t)
    (h : NoMatch emailMatchLen t) : NoMatch emailMatchLen u := by
  intro i
  by_contra hc
  have hpat := email_witness hc
  have hpre : nsRun (u.drop i) <+: u.drop i := by
    rw [nsRun]
    exact List.takeWhile_prefix _
  have hifx2 : nsRun (u.drop i) <:+: t :=
    (List.infix_iff_prefix_suffix.mpr ⟨_, hpre, List.drop_suffix i _⟩).trans hifx
  obtain ⟨j, hj⟩ := exists_drop_of_ifx hifx2
  exact email_some_of_runpfx hpat nsRun_all hj (h j)

theorem noMatch_ctrl_iff {t : List Char} :
    NoMatch ctrlMatchLen t ↔ ∀ c ∈ t, isCtrlChar c = false := by
  constructor
  · intro h c hc
    obtain ⟨s, r, rfl⟩ := List.append_of_mem hc
    have hj := h s.length
    rw [List.drop_left' rfl] at hj
    exact ctrl_head_false hj
  · intro h i
    cases hdrop : t.drop i with
    | nil => decide
    | cons c r =>
      have hc : c ∈ t := by
        have : c ∈ t.drop i := by rw [hdrop]; exact List.mem_cons_self _ _
        exact (List.drop_suffix i t).subset this
      exact ctrl_none_of_head _ (h c hc)

theorem noMatch_multi_iff {t : List Char} :
    NoMatch multiMatchLen t ↔
      ∀ c1 c2, isPySpace c1 = true → isPySpace c2 = true → ¬([c1, c2] <:+: t) := by
  constructor
  · intro h c1 c2 h1 h2 hifx
    obtain ⟨j, hj⟩ := exists_drop_of_ifx hifx
    obtain ⟨r, hr⟩ := hj
    have hd2 : t.drop j = c1 :: c2 :: r := by rw [← hr]; simp
    have hnone : multiMatchLen (c1 :: c2 :: r) = none := by rw [← hd2]; exact h j
    have h2len : 2 ≤ ((c1 :: c2 :: r).takeWhile isPySpace).length := by
      rw [List.takeWhile_cons_of_pos h1, List.takeWhile_cons_of_pos h2]
      simp
    rw [multiMatchLen, if_neg (by omega)] at hnone
    cases hnone
  · intro h i
    cases hdrop : t.drop i with
    | nil => decide
    | cons c1 r1 =>
      cases r1 with
      | nil =>
        have hc : ((c1 :: ([] : List Char)).takeWhile isPySpace).length < 2 := by
          cases h1 : isPySpace c1 <;> simp [List.takeWhile_cons, h1]
        rw [multiMatchLen, if_pos hc]
      | cons c2 r =>
        cases h1 : isPySpace c1 with
        | false => exact multi_none_of_head _ h1
        | true =>
          cases h2 : isPySpace c2 with
          | false =>
            rw [multiMatchLen, List.takeWhile_cons_of_pos h1,
              List.takeWhile_cons_of_neg (by simp [h2])]
            rfl
          | true =>
            exfalso
            apply h c1 c2 h1 h2
            have hpre : [c1, c2] <+: t.drop i := by
              rw [hdrop]
              exact ⟨r, rfl⟩
            exact (List.infix_iff_prefix_suffix.mpr ⟨_, hpre, List.drop_suffix i _⟩)

/-! ## Lemmas: `pyStrip` -/

theorem dropWhile_dropWhile {q : Char → Bool} (l : List Char) :
    (l.dropWhile q).dropWhile q = l.dropWhile q := by
  induction l with
  | nil => rfl
  | cons c l ih =>
    by_cases h : q c
    · simp [List.dropWhile_cons, h, ih]
    · simp [List.dropWhile_cons, h]

theorem pyStrip_pfx_dropWhile (cs : List Char) :
    pyStrip cs <+: cs.dropWhile isPySpace := by
  rw [pyStrip]
  have h3 : (cs.dropWhile isPySpace).reverse.dropWhile isPySpace <:+
      (cs.dropWhile isPySpace).reverse := List.dropWhile_suffix _
  have h4 := List.reverse_prefix.mpr h3
  rwa [List.reverse_reverse] at h4

theorem pyStrip_ifx (cs : List Char) : pyStrip cs <:+: cs :=
  List.infix_iff_prefix_suffix.mpr
    ⟨_, pyStrip_pfx_dropWhile cs, List.dropWhile_suffix _⟩

theorem pyStrip_idem (cs : List Char) : pyStrip (pyStrip cs) = pyStrip cs := by
  have hstep1 : (pyStrip cs).dropWhile isPySpace = pyStrip cs := by
    cases hw : pyStrip cs with
    | nil => rfl
    | cons x w' =>
      have hpre : pyStrip cs <+: cs.dropWhile isPySpace := pyStrip_pfx_dropWhile cs
      rw [hw] at hpre
      obtain ⟨r, hr⟩ := hpre
      have hx : isPySpace x = false := by
        have hh := List.head?_dropWhile_not isPySpace cs
        rw [← hr] at hh
        simpa using hh
      rw [List.dropWhile_cons_of_neg (by simp [hx])]
  rw [pyStrip, hstep1]
  have hstep2 : (pyStrip cs).reverse.dropWhile isPySpace = (pyStrip cs).reverse := by
    rw [pyStrip, List.reverse_reverse]
    exact dropWhile_dropWhile _
  rw [hstep2, List.reverse_reverse]

/-! ## The output of `cleanStr` matches none of the four patterns -/

theorem cleanStr_noMatch_url (s : List Char) : NoMatch urlMatchLen (cleanStr s) := by
  rw [cleanStr]
  apply noMatch_url_of_ifx (pyStrip_ifx _)
  apply noMatch_url_scan
  apply noMatch_url_scan
  apply noMatch_url_scan
  exact url_noMatch _ _ le_rfl

theorem cleanStr_noMatch_email (s : List Char) : NoMatch emailMatchLen (cleanStr s) := by
  rw [cleanStr]
  apply noMatch_email_of_ifx (pyStrip_ifx _)
  apply noMatch_email_scan
  apply noMatch_email_scan
  exact email_noMatch _ _ le_rfl

theorem cleanStr_noMatch_ctrl (s : List Char) : NoMatch ctrlMatchLen (cleanStr s) := by
  rw [cleanStr]
  rw [noMatch_ctrl_iff]
  intro c hc
  have hc2 : c ∈ scanSub multiMatchLen (scanSub ctrlMatchLen
      (scanSub emailMatchLen (scanSub urlMatchLen s))) :=
    (pyStrip_ifx _).subset hc
  rw [scanSub] at hc2
  rcases scan_mem _ _ _ _ hc2 with hc3 | rfl
  · have hctrl : NoMatch ctrlMatchLen (scanSub ctrlMatchLen
        (scanSub emailMatchLen (scanSub urlMatchLen s))) := by
      rw [scanSub]
      exact ctrl_noMatch _ _ le_rfl
    exact (noMatch_ctrl_iff.mp hctrl) c hc3
  · decide

theorem cleanStr_noMatch_multi (s : List Char) : NoMatch multiMatchLen (cleanStr s) := by
  rw [cleanStr]
  rw [noMatch_multi_iff]
  intro c1 c2 h1 h2 hifx
  have hmulti : NoMatch multiMatchLen (scanSub multiMatchLen (scanSub ctrlMatchLen
      (scanSub emailMatchLen (scanSub urlMatchLen s)))) := by
    rw [scanSub]
    exact multi_noMatch _ _ le_rfl
  exact (noMatch_multi_iff.mp hmulti) c1 c2 h1 h2 (hifx.trans (pyStrip_ifx _))

theorem scanSub_eq_self {m : List Char → Option Nat} {t : List Char}
    (h : NoMatch m t) : scanSub m t = t :=
  scan_id_of_noMatch m _ t h

/-- Claim C2 preliminary: the string-level pipeline is idempotent. -/
theorem cleanStr_idem (s : List Char) : cleanStr (cleanStr s) = cleanStr s := by
  conv_lhs => rw [cleanStr]
  rw [scanSub_eq_self (cleanStr_noMatch_url s),
    scanSub_eq_self (cleanStr_noMatch_email s),
    scanSub_eq_self (cleanStr_noMatch_ctrl s),
    scanSub_eq_self (cleanStr_noMatch_multi s)]
  conv_lhs => rw [cleanStr]
  rw [pyStrip_idem]
  rw [cleanStr]

/-! ## Lemmas: the document store -/

theorem docGet_buildDoc_texte (det : List Char → String) (ps : List Char → Scores)
    (r : Rec) : docGet (buildDoc det ps r) MField.texte = some (Value.vstr r.texte) := by
  cases h : r.id_post <;> simp [buildDoc, docGet, h]

theorem docGet_buildDoc_id_post (det : List Char → String) (ps : List Char → Scores)
    (r : Rec) : docGet (buildDoc det ps r) MField.id_post = r.id_post.map Value.vint := by
  cases h : r.id_post <;> simp [buildDoc, docGet, h]

theorem docGet_buildDoc_text (det : List Char → String) (ps : List Char → Scores)
    (r : Rec) : docGet (buildDoc det ps r) MField.text = none := by
  cases h : r.id_post <;> simp [buildDoc, docGet, h]

theorem keyFor_texte (r : Rec) :
    keyFor MField.texte r = (MField.texte, some (Value.vstr r.texte)) := by
  simp [keyFor, recGet]

theorem keyFor_id_post (r : Rec) :
    keyFor MField.id_post r = (MField.id_post, r.id_post.map Value.vint) := by
  cases h : r.id_post <;> simp [keyFor, recGet, pyIntOfValue, h]

theorem keyFor_text (r : Rec) : keyFor MField.text r = (MField.text, none) := by
  simp [keyFor, recGet]

theorem keyFor_fst (f : MField) (r : Rec) : (keyFor f r).1 = f := by
  cases f <;> cases h : r.id_post <;> simp [keyFor, recGet, pyIntOfValue, h]

theorem matchesKey_buildDoc (det : List Char → String) (ps : List Char → Scores)
    (f : MField) (r : Rec)
    (hf : f = MField.id_post ∨ f = MField.texte ∨ f = MField.text) :
    matchesKey (keyFor f r) (buildDoc det ps r) = true := by
  rcases hf with rfl | rfl | rfl
  · rw [matchesKey, keyFor_id_post]
    simp [docGet_buildDoc_id_post]
  · rw [matchesKey, keyFor_texte]
    simp [docGet_buildDoc_texte]
  · rw [matchesKey, keyFor_text]
    simp [docGet_buildDoc_text]

theorem replaceOne_twice {k : MKey} {nd1 nd2 : Doc} (h : matchesKey k nd1 = true) :
    ∀ store : List Doc,
      replaceOne k nd2 (replaceOne k nd1 store) = replaceOne k nd2 store
  | [] => by simp [replaceOne, h]
  | d :: ds => by
    by_cases hd : matchesKey k d = true
    · simp [replaceOne, hd, h]
    · have h1 : replaceOne k nd1 (d :: ds) = d :: replaceOne k nd1 ds := by
        rw [replaceOne, if_neg hd]
      have h2 : replaceOne k nd2 (d :: ds) = d :: replaceOne k nd2 ds := by
        rw [replaceOne, if_neg hd]
      have h3 : replaceOne k nd2 (d :: replaceOne k nd1 ds) =
          d :: replaceOne k nd2 (replaceOne k nd1 ds) := by
        rw [replaceOne, if_neg hd]
      rw [h1, h2, h3, replaceOne_twice h ds]

theorem countMatches_nil (k : MKey) : countMatches k [] = 0 := rfl

theorem replaceOne_filter {k : MKey} {nd : Doc} (h : matchesKey k nd = true) :
    ∀ store : List Doc, countMatches k store ≤ 1 →
      (replaceOne k nd store).filter (fun d => matchesKey k d) = [nd]
  | [] => by
    intro _
    simp [replaceOne, List.filter, h]
  | d :: ds => by
    intro hc
    by_cases hd : matchesKey k d = true
    · have hds : countMatches k ds = 0 := by
        rw [countMatches, List.filter_cons, if_pos (by simp [hd])] at hc
        simp only [List.length_cons] at hc
        rw [countMatches]
        omega
      have hfil : ds.filter (fun d => matchesKey k d) = [] := by
        rw [countMatches] at hds
        exact List.length_eq_zero.mp hds
      rw [replaceOne, if_pos hd, List.filter_cons, if_pos (by simp [h]), hfil]
    · have hc' : countMatches k ds ≤ 1 := by
        rw [countMatches, List.filter_cons, if_neg (by simp [hd])] at hc
        exact hc
      rw [replaceOne, if_neg (by simp [hd]), List.filter_cons, if_neg (by simp [hd])]
      exact replaceOne_filter h ds hc'

theorem upsert_text_run (det : List Char → String) (ps : List Char → Scores) :
    ∀ (rs : List Rec) (h : rs ≠ []) (store : List Doc),
      upsert_records det ps MField.text store rs =
        replaceOne (MField.text, none) (buildDoc det ps (rs.getLast h)) store := by
  intro rs
  induction rs with
  | nil => intro h; exact absurd rfl h
  | cons r rs' ih =>
    intro h store
    by_cases hrs : rs' = []
    · subst hrs
      rw [upsert_records, List.foldl_cons, List.foldl_nil, upsertStep, keyFor_text]
      rfl
    · have hne : rs' ≠ [] := hrs
      have hstep : upsert_records det ps MField.text store (r :: rs') =
          upsert_records det ps MField.text (upsertStep det ps MField.text store r) rs' := by
        rw [upsert_records, List.foldl_cons, upsert_records]
      rw [hstep, ih hne]
      rw [upsertStep, keyFor_text]
      have hmk : matchesKey (MField.text, none) (buildDoc det ps r) = true := by
        have hmb := matchesKey_buildDoc det ps MField.text r (Or.inr (Or.inr rfl))
        rwa [keyFor_text] at hmb
      rw [replaceOne_twice hmk]
      exact congrArg
        (fun d => replaceOne (MField.text, none) (buildDoc det ps d) store)
        (List.getLast_cons hne).symm

/-! ## Lemmas: the token-explanation sort -/

theorem mem_insertDesc {x z : List Char × ℚ} :
    ∀ {l : List (List Char × ℚ)}, z ∈ insertDesc x l ↔ z = x ∨ z ∈ l
  | [] => by simp [insertDesc]
  | y :: ys => by
    rw [insertDesc]
    by_cases h : absKey y ≤ absKey x
    · rw [if_pos h]
      simp
    · rw [if_neg h]
      simp only [List.mem_cons, mem_insertDesc (l := ys)]
      tauto

theorem insertDesc_pairwise {x : List Char × ℚ} :
    ∀ {l : List (List Char × ℚ)},
      l.Pairwise (fun p q => absKey q ≤ absKey p) →
      (insertDesc x l).Pairwise (fun p q => absKey q ≤ absKey p)
  | [] => by simp [insertDesc]
  | y :: ys => by
    intro hl
    rw [insertDesc]
    rw [List.pairwise_cons] at hl
    by_cases h : absKey y ≤ absKey x
    · rw [if_pos h]
      refine List.Pairwise.cons ?_ (List.Pairwise.cons hl.1 hl.2)
      intro z hz
      rcases List.mem_cons.mp hz with rfl | hz'
      · exact h
      · exact le_trans (hl.1 z hz') h
    · rw [if_neg h]
      refine List.Pairwise.cons ?_ (insertDesc_pairwise hl.2)
      intro z hz
      rcases mem_insertDesc.mp hz with rfl | hz'
      · exact le_of_lt (lt_of_not_le h)
      · exact hl.1 z hz'

theorem sortDescAbs_pairwise :
    ∀ l : List (List Char × ℚ),
      (sortDescAbs l).Pairwise (fun p q => absKey q ≤ absKey p)
  | [] => by simp [sortDescAbs]
  | x :: xs => by
    rw [sortDescAbs]
    exact insertDesc_pairwise (sortDescAbs_pairwise xs)

theorem mem_sortDescAbs {z : List Char × ℚ} :
    ∀ {l : List (List Char × ℚ)}, z ∈ sortDescAbs l ↔ z ∈ l
  | [] => by simp [sortDescAbs]
  | x :: xs => by
    rw [sortDescAbs, mem_insertDesc]
    simp only [List.mem_cons, mem_sortDescAbs (l := xs)]

theorem filter_insertDesc (k : ℚ) (x : List Char × ℚ) :
    ∀ l : List (List Char × ℚ),
      (insertDesc x l).filter (fun p => decide (absKey p = k)) =
        ((x :: l).filter (fun p => decide (absKey p = k)))
  | [] => rfl
  | y :: ys => by
    rw [insertDesc]
    by_cases hxy : absKey y ≤ absKey x
    · rw [if_pos hxy]
    · rw [if_neg hxy]
      have hlt : absKey x < absKey y := lt_of_not_le hxy
      by_cases hx : absKey x = k
      · have hy : absKey y ≠ k := by
          intro hy
          exact (ne_of_gt hlt) (hy.trans hx.symm)
        simp [List.filter_cons, hx, hy, filter_insertDesc k x ys]
      · by_cases hy : absKey y = k
        · simp [List.filter_cons, hx, hy, filter_insertDesc k x ys]
        · simp [List.filter_cons, hx, hy, filter_insertDesc k x ys]

theorem filter_sortDescAbs (k : ℚ) :
    ∀ l : List (List Char × ℚ),
      (sortDescAbs l).filter (fun p => decide (absKey p = k)) =
        l.filter (fun p => decide (absKey p = k))
  | [] => rfl
  | x :: xs => by
    rw [sortDescAbs, filter_insertDesc k x (sortDescAbs xs)]
    rw [List.filter_cons, List.filter_cons, filter_sortDescAbs k xs]

/-! ## Lemmas: duplicate removal -/

theorem dedupGo_cons_none {V : Type} [DecidableEq V] (seen : List V)
    {d : Nat × Option V} (ds : List (Nat × Option V)) (hv : d.2 = none) :
    dedupGo seen (d :: ds) = d :: dedupGo seen ds := by
  rw [dedupGo, hv]

theorem dedupGo_cons_mem {V : Type} [DecidableEq V] {seen : List V} {v : V}
    {d : Nat × Option V} (ds : List (Nat × Option V)) (hv : d.2 = some v)
    (hs : v ∈ seen) : dedupGo seen (d :: ds) = dedupGo seen ds := by
  rw [dedupGo, hv]
  simp [hs]

theorem dedupGo_cons_new {V : Type} [DecidableEq V] {seen : List V} {v : V}
    {d : Nat × Option V} (ds : List (Nat × Option V)) (hv : d.2 = some v)
    (hs : v ∉ seen) : dedupGo seen (d :: ds) = d :: dedupGo (v :: seen) ds := by
  rw [dedupGo, hv]
  simp [hs]

theorem dedupGo_idem {V : Type} [DecidableEq V] :
    ∀ (seen : List V) (l : List (Nat × Option V)),
      dedupGo seen (dedupGo seen l) = dedupGo seen l
  | _, [] => rfl
  | seen, d :: ds => by
    cases hv : d.2 with
    | none =>
      rw [dedupGo_cons_none seen ds hv, dedupGo_cons_none seen _ hv]
      rw [dedupGo_idem seen ds]
    | some v =>
      by_cases hs : v ∈ seen
      · rw [dedupGo_cons_mem ds hv hs]
        exact dedupGo_idem seen ds
      · rw [dedupGo_cons_new ds hv hs, dedupGo_cons_new _ hv hs]
        rw [dedupGo_idem (v :: seen) ds]

theorem dedupGo_filter {V : Type} [DecidableEq V] (v : V) :
    ∀ (seen : List V) (l : List (Nat × Option V)),
      (dedupGo seen l).filter (fun d => decide (d.2 = some v)) =
        if v ∈ seen then [] else (l.find? (fun d => decide (d.2 = some v))).toList
  | seen, [] => by
    by_cases hs : v ∈ seen <;> simp [dedupGo, hs]
  | seen, d :: ds => by
    cases hv : d.2 with
    | none =>
      have hdv : ¬(d.2 = some v) := by rw [hv]; intro hh; cases hh
      rw [dedupGo_cons_none seen ds hv, List.filter_cons, if_neg (by simp [hdv])]
      rw [dedupGo_filter v seen ds]
      rw [List.find?_cons_of_neg _ (by simp [hdv])]
    | some w =>
      by_cases hw : w ∈ seen
      · rw [dedupGo_cons_mem ds hv hw]
        rw [dedupGo_filter v seen ds]
        by_cases hvs : v ∈ seen
        · rw [if_pos hvs, if_pos hvs]
        · rw [if_neg hvs, if_neg hvs]
          have hvw : ¬(d.2 = some v) := by
            rw [hv]
            intro hh
            injection hh with hh
            exact hvs (hh ▸ hw)
          rw [List.find?_cons_of_neg _ (by simp [hvw])]
      · rw [dedupGo_cons_new ds hv hw, List.filter_cons]
        rw [dedupGo_filter v (w :: seen) ds]
        by_cases hvw : v = w
        · subst hvw
          rw [if_pos (by simp [hv] : decide (d.2 = some v) = true)]
          rw [if_pos (List.mem_cons_self v seen)]
          rw [if_neg hw]
          rw [List.find?_cons_of_pos _ (by simp [hv])]
          rfl
        · have hdv : ¬(d.2 = some v) := by
            rw [hv]
            intro hh
            injection hh with hh
            exact hvw hh.symm
          rw [if_neg (by simp [hdv])]
          have hmem : (v ∈ w :: seen) ↔ (v ∈ seen) := by
            simp [List.mem_cons, hvw]
          by_cases hvs : v ∈ seen
          · rw [if_pos (hmem.mpr hvs), if_pos hvs]
          · rw [if_neg (fun hh => hvs (hmem.mp hh)), if_neg hvs]
            rw [List.find?_cons_of_neg _ (by simp [hdv])]

/-! ## Lemmas: the mongo scan loop -/

theorem pfm_go_bound (force : Bool) (n : Nat) (hn : n ≠ 0) :
    ∀ (docs : List MDoc) (total updated : Nat), total ≤ n →
      (process_from_mongo_go force n total updated docs).1 ≤ n + 1 ∧
      (process_from_mongo_go force n total updated docs).2 ≤ updated + (n - total)
  | [], total, updated => by
    intro ht
    rw [process_from_mongo_go]
    exact ⟨le_trans ht (Nat.le_succ n), Nat.le_add_right _ _⟩
  | d :: ds, total, updated => by
    intro ht
    rw [process_from_mongo_go]
    by_cases hbr : n < total + 1
    · rw [if_pos ⟨hn, hbr⟩]
      exact ⟨by omega, by omega⟩
    · rw [if_neg (by tauto)]
      have ht' : total + 1 ≤ n := by omega
      by_cases hneed : (force || !d.hasLanguage || !d.hasSentiment) = true
      · rw [if_pos hneed]
        have := pfm_go_bound force n hn ds (total + 1) (updated + 1) ht'
        exact ⟨this.1, le_trans this.2 (by omega)⟩
      · rw [if_neg hneed]
        have := pfm_go_bound force n hn ds (total + 1) updated ht'
        exact ⟨this.1, le_trans this.2 (by omega)⟩

/-! ## Lemmas: the bulk sync -/

theorem bulkHelper_ok :
    ∀ batches : List BatchResult, BatchResult.transportDown ∉ batches →
      bulkHelper batches = some (okTotal batches, errsTotal batches)
  | [] => fun _ => rfl
  | BatchResult.ok n es :: rest => by
    intro h
    have hrest : BatchResult.transportDown ∉ rest :=
      fun hr => h (List.mem_cons_of_mem _ hr)
    rw [bulkHelper, bulkHelper_ok rest hrest, okTotal, errsTotal]
  | BatchResult.transportDown :: rest => by
    intro h
    exact absurd (List.mem_cons_self _ _) h

theorem bulkHelper_down :
    ∀ batches : List BatchResult, BatchResult.transportDown ∈ batches →
      bulkHelper batches = none
  | [] => by intro h; cases h
  | BatchResult.ok n es :: rest => by
    intro h
    have hrest : BatchResult.transportDown ∈ rest := by
      rcases List.mem_cons.mp h with hh | hh
      · cases hh
      · exact hh
    rw [bulkHelper, bulkHelper_down rest hrest]
  | BatchResult.transportDown :: rest => fun _ => rfl

/-! ## The claims -/

/-- Claim C1: upsert by identity key (`id_post` or `texte`) is idempotent:
running the same upsert-loop iteration twice with the same record leaves the
same store as running it once, and — provided the store satisfies the
uniqueness invariant for that key (at most one matching document) — exactly
one document is stored under the key afterwards, equal to the newly built
document (a full replacement, not a merge). -/
theorem C1_upsert_idempotent (det : List Char → String) (ps : List Char → Scores)
    (f : MField) (r : Rec) (store : List Doc)
    (hf : f = MField.id_post ∨ f = MField.texte) :
    upsertStep det ps f (upsertStep det ps f store r) r =
      upsertStep det ps f store r ∧
    (countMatches (keyFor f r) store ≤ 1 →
      (upsertStep det ps f (upsertStep det ps f store r) r).filter
        (fun d => matchesKey (keyFor f r) d) = [buildDoc det ps r]) := by
  have hmk : matchesKey (keyFor f r) (buildDoc det ps r) = true :=
    matchesKey_buildDoc det ps f r (by tauto)
  constructor
  · simp only [upsertStep]
    exact replaceOne_twice hmk store
  · intro hc
    simp only [upsertStep]
    rw [replaceOne_twice hmk store]
    exact replaceOne_filter hmk store hc

theorem C1_witness :
    upsertStep (fun _ => "en") (fun _ => ⟨0, 1, 0, 0⟩) MField.texte
        (upsertStep (fun _ => "en") (fun _ => ⟨0, 1, 0, 0⟩) MField.texte []
          ⟨some 1, ['a'], ['t'], ['l']⟩) ⟨some 1, ['a'], ['t'], ['l']⟩ =
      upsertStep (fun _ => "en") (fun _ => ⟨0, 1, 0, 0⟩) MField.texte []
        ⟨some 1, ['a'], ['t'], ['l']⟩ ∧
    (upsertStep (fun _ => "en") (fun _ => ⟨0, 1, 0, 0⟩) MField.texte
        (upsertStep (fun _ => "en") (fun _ => ⟨0, 1, 0, 0⟩) MField.texte []
          ⟨some 1, ['a'], ['t'], ['l']⟩) ⟨some 1, ['a'], ['t'], ['l']⟩).filter
      (fun d => matchesKey (keyFor MField.texte ⟨some 1, ['a'], ['t'], ['l']⟩) d) =
      [buildDoc (fun _ => "en") (fun _ => ⟨0, 1, 0, 0⟩) ⟨some 1, ['a'], ['t'], ['l']⟩] := by
  have h := C1_upsert_idempotent (fun _ => "en") (fun _ => ⟨0, 1, 0, 0⟩)
    MField.texte ⟨some 1, ['a'], ['t'], ['l']⟩ [] (Or.inr rfl)
  exact ⟨h.1, h.2 (by decide)⟩

/-- Claim C2: text normalization is idempotent: for every string `t`,
`clean_text(clean_text(t)) = clean_text(t)`, where the cleaning is the
fixed-order URL removal, email removal, control-character collapse,
whitespace collapse and trim of `clean_text`; likewise at the
null-tolerant level. -/
theorem C2_normalize_idempotent (t : List Char) :
    cleanStr (cleanStr t) = cleanStr t ∧
    ∀ s : Option (List Char), clean_text (some (clean_text s)) = clean_text s := by
  refine ⟨cleanStr_idem t, ?_⟩
  intro s
  cases s with
  | none => rfl
  | some u => exact cleanStr_idem u

theorem C2_witness :
    cleanStr (cleanStr ['a', ' ', 'b']) = cleanStr ['a', ' ', 'b'] ∧
    ∀ s : Option (List Char), clean_text (some (clean_text s)) = clean_text s :=
  C2_normalize_idempotent ['a', ' ', 'b']

/-- Claim C3: empty, null or whitespace-only input yields the fixed neutral
result — scores `{neg: 0, neu: 1, pos: 0, compound: 0}`, label "neutral",
empty token list — from `sentiment_vader`, and the same scores and label
(with language "unknown") from `analyze_text`; no error is possible as both
are total functions. -/
theorem C3_blank_neutral (det : List Char → String) (ps : List Char → Scores)
    (lex : List (List Char × ℚ)) (text : Option (List Char))
    (h : isBlank text = true) :
    sentiment_vader ps lex text = ("neutral", neutralScores, []) ∧
    analyze_text det ps text = ("unknown", "neutral", neutralScores) := by
  constructor
  · rw [sentiment_vader, if_pos h]
  · rw [analyze_text]
    simp [h]

theorem C3_witness :
    isBlank (some [' ', '\t']) = true ∧
    sentiment_vader (fun _ => ⟨0, 0, 0, 1⟩) [] (some [' ', '\t']) =
      ("neutral", neutralScores, []) ∧
    analyze_text (fun _ => "fr") (fun _ => ⟨0, 0, 0, 1⟩) (some [' ', '\t']) =
      ("unknown", "neutral", neutralScores) := by
  have h := C3_blank_neutral (fun _ => "fr") (fun _ => ⟨0, 0, 0, 1⟩) []
    (some [' ', '\t']) (by decide)
  exact ⟨by decide, h.1, h.2⟩

/-- Claim C4: for non-blank text the label is determined from the compound
score by the fixed thresholds: compound ≥ 0.05 (inclusive) → "positive",
compound ≤ −0.05 (inclusive) → "negative", strictly between → "neutral";
in both `sentiment_vader` and `analyze_text`. -/
theorem C4_thresholds (det : List Char → String) (ps : List Char → Scores)
    (lex : List (List Char × ℚ)) (text : Option (List Char))
    (h : isBlank text = false) :
    ((0.05 : ℚ) ≤ (ps (text.getD [])).compound →
      (sentiment_vader ps lex text).1 = "positive" ∧
      (analyze_text det ps text).2.1 = "positive") ∧
    ((ps (text.getD [])).compound ≤ -(0.05 : ℚ) →
      (sentiment_vader ps lex text).1 = "negative" ∧
      (analyze_text det ps text).2.1 = "negative") ∧
    (-(0.05 : ℚ) < (ps (text.getD [])).compound →
      (ps (text.getD [])).compound < (0.05 : ℚ) →
      (sentiment_vader ps lex text).1 = "neutral" ∧
      (analyze_text det ps text).2.1 = "neutral") := by
  refine ⟨fun hc => ⟨?_, ?_⟩, fun hc => ⟨?_, ?_⟩, fun h1 h2 => ⟨?_, ?_⟩⟩
  · simp [sentiment_vader, h, hc]
  · simp [analyze_text, h, hc]
  · have hnc : ¬((0.05 : ℚ) ≤ (ps (text.getD [])).compound) := by
      intro hcontra
      have : (-(0.05 : ℚ)) < 0.05 := by norm_num
      linarith
    simp [sentiment_vader, h, hnc, hc]
  · have hnc : ¬((0.05 : ℚ) ≤ (ps (text.getD [])).compound) := by
      intro hcontra
      have : (-(0.05 : ℚ)) < 0.05 := by norm_num
      linarith
    simp [analyze_text, h, hnc, hc]
  · have hnc : ¬((0.05 : ℚ) ≤ (ps (text.getD [])).compound) := not_le.mpr h2
    have hnc2 : ¬((ps (text.getD [])).compound ≤ -(0.05 : ℚ)) := not_le.mpr h1
    simp [sentiment_vader, h, hnc, hnc2]
  · have hnc : ¬((0.05 : ℚ) ≤ (ps (text.getD [])).compound) := not_le.mpr h2
    have hnc2 : ¬((ps (text.getD [])).compound ≤ -(0.05 : ℚ)) := not_le.mpr h1
    simp [analyze_text, h, hnc, hnc2]

theorem C4_witness :
    (sentiment_vader (fun _ => ⟨0, 0, 0, 0.05⟩) [] (some ['h', 'i'])).1 =
      "positive" ∧
    (analyze_text (fun _ => "en") (fun _ => ⟨0, 0, 0, 0.05⟩)
      (some ['h', 'i'])).2.1 = "positive" := by
  have h := C4_thresholds (fun _ => "en") (fun _ => ⟨0, 0, 0, 0.05⟩) []
    (some ['h', 'i']) (by decide)
  exact h.1 (by norm_num)

/-- Claim C5: for every text and lexicon the token explanation of
`sentiment_vader` has at most 8 entries; every entry is a whitespace-split,
lower-cased, punctuation-stripped token that is present in the lexicon,
paired with its lexicon value; and the list is sorted by descending absolute
polarity with ties on equal magnitude kept in the tokens' original order
(stable sort): for each magnitude, the entries form a prefix of the
equal-magnitude entries of the unsorted token list. -/
theorem C5_token_explanation (ps : List Char → Scores)
    (lex : List (List Char × ℚ)) (text : Option (List Char)) :
    ((sentiment_vader ps lex text).2.2).length ≤ 8 ∧
    (∀ p ∈ (sentiment_vader ps lex text).2.2,
      (∃ t ∈ pySplit (text.getD []),
        p.1 = stripChars punctChars (pyLower t)) ∧
      lookupLex lex p.1 = some p.2) ∧
    ((sentiment_vader ps lex text).2.2).Pairwise
      (fun p q => absKey q ≤ absKey p) ∧
    (∀ k : ℚ, ((sentiment_vader ps lex text).2.2).filter
        (fun p => decide (absKey p = k)) <+:
      (svTokenVals lex (text.getD [])).filter
        (fun p => decide (absKey p = k))) := by
  cases hb : isBlank text with
  | true =>
    have he : (sentiment_vader ps lex text).2.2 = [] := by
      rw [sentiment_vader, if_pos hb]
    rw [he]
    exact ⟨by simp, by simp, List.Pairwise.nil, fun k => by simp⟩
  | false =>
    have he : (sentiment_vader ps lex text).2.2 =
        (sortDescAbs (svTokenVals lex (text.getD []))).take 8 := by
      rw [sentiment_vader, if_neg (by simp [hb])]
    rw [he]
    refine ⟨?_, ?_, ?_, ?_⟩
    · rw [List.length_take]
      exact Nat.min_le_left _ _
    · intro p hp
      have hmem : p ∈ sortDescAbs (svTokenVals lex (text.getD [])) :=
        List.take_subset _ _ hp
      have hmem2 : p ∈ svTokenVals lex (text.getD []) := mem_sortDescAbs.mp hmem
      rw [svTokenVals] at hmem2
      obtain ⟨t, ht, hf⟩ := List.mem_filterMap.mp hmem2
      simp only [Option.map_eq_some'] at hf
      obtain ⟨v, hv, hpv⟩ := hf
      refine ⟨⟨t, ht, ?_⟩, ?_⟩
      · rw [← hpv]
      · rw [← hpv]
        exact hv
    · exact List.Pairwise.sublist (List.take_sublist _ _) (sortDescAbs_pairwise _)
    · intro k
      have h0 := List.take_prefix 8 (sortDescAbs (svTokenVals lex (text.getD [])))
      have h1 := h0.filter (fun p => decide (absKey p = k))
      rw [filter_sortDescAbs] at h1
      exact h1

theorem C5_witness :
    ((sentiment_vader (fun _ => ⟨0, 0, 0, 1⟩) [(['b'], -(3 : ℚ)/4), (['a'], 1/2)]
      (some ['a', ' ', 'b', '!', ' ', 'a'])).2.2).length ≤ 8 :=
  (C5_token_explanation (fun _ => ⟨0, 0, 0, 1⟩) [(['b'], -(3 : ℚ)/4), (['a'], 1/2)]
    (some ['a', ' ', 'b', '!', ' ', 'a'])).1

/-- Claim C6: the duplicate-removal step of `ensure_unique_index` is
idempotent: run on its own output it deletes no further documents and
returns the same store (hence the same count, and — all failures being
caught in the source — no error); for every non-null value of the indexed
field exactly one document survives, namely the earliest-inserted one. -/
theorem C6_dedup_idempotent {V : Type} [DecidableEq V]
    (docs : List (Nat × Option V)) :
    ensure_unique_index (ensure_unique_index docs) = ensure_unique_index docs ∧
    dedupRemoved (ensure_unique_index docs) = 0 ∧
    ∀ v : V, (ensure_unique_index docs).filter (fun d => decide (d.2 = some v)) =
      (docs.find? (fun d => decide (d.2 = some v))).toList := by
  refine ⟨dedupGo_idem [] docs, ?_, ?_⟩
  · rw [dedupRemoved]
    rw [show ensure_unique_index (ensure_unique_index docs) =
      ensure_unique_index docs from dedupGo_idem [] docs]
    omega
  · intro v
    have h := dedupGo_filter v [] docs
    rw [if_neg (List.not_mem_nil v)] at h
    exact h

theorem C6_witness :
    ensure_unique_index (ensure_unique_index
        [(1, some 7), (2, some 7), (3, none), (4, some 5)]) =
      ensure_unique_index [(1, some 7), (2, some 7), (3, none), (4, some 5)] ∧
    dedupRemoved (ensure_unique_index
      [(1, some 7), (2, some 7), (3, none), (4, some 5)]) = 0 ∧
    ∀ v : Nat, (ensure_unique_index
        [(1, some 7), (2, some 7), (3, none), (4, some 5)]).filter
        (fun d => decide (d.2 = some v)) =
      (List.find? (fun d => decide (d.2 = some v))
        [(1, some 7), (2, some 7), (3, none), (4, some 5)]).toList :=
  C6_dedup_idempotent [(1, some 7), (2, some 7), (3, none), (4, some 5)]

/-- Claim C7, counterexample: with sample limit 1 and two stored documents
needing annotation, the scan fetches and counts 2 documents as scanned —
the scanned count exceeds the limit, because the loop increments `total`
before the `total > sample` check. -/
theorem C7_counterexample :
    (process_from_mongo false 1 [⟨1, false, false⟩, ⟨2, false, false⟩]).1 = 2 ∧
    ¬((process_from_mongo false 1 [⟨1, false, false⟩, ⟨2, false, false⟩]).1 ≤ 1) := by
  decide

/-- Claim C7, amended: for every positive sample limit `n`, the scan visits
and counts as scanned at most `n + 1` documents (one more than the limit),
and updates at most `n` documents. -/
theorem C7_amended (force : Bool) (n : Nat) (docs : List MDoc) (h : 0 < n) :
    (process_from_mongo force n docs).1 ≤ n + 1 ∧
    (process_from_mongo force n docs).2 ≤ n := by
  have hb := pfm_go_bound force n (by omega) docs 0 0 (by omega)
  rw [process_from_mongo]
  refine ⟨hb.1, ?_⟩
  have h2 := hb.2
  omega

theorem C7_witness :
    (process_from_mongo false 1 [⟨1, false, false⟩, ⟨2, false, false⟩]).1 ≤ 1 + 1 ∧
    (process_from_mongo false 1 [⟨1, false, false⟩, ⟨2, false, false⟩]).2 ≤ 1 :=
  C7_amended false 1 [⟨1, false, false⟩, ⟨2, false, false⟩] (by decide)

/-- Claim C8 (bulk contract modelled from the spec): if no batch hits an
unusable transport, the sync completes over all batches and reports the
total success count, the total failure count, and a bounded sample of at
most 3 failure causes; a batch with an unusable transport aborts the whole
run. -/
theorem C8_sync_recovery (batches : List BatchResult) :
    (BatchResult.transportDown ∉ batches →
      syncRun batches = some (okTotal batches, (errsTotal batches).length,
        (errsTotal batches).take 3) ∧
      ((errsTotal batches).take 3).length ≤ 3) ∧
    (BatchResult.transportDown ∈ batches → syncRun batches = none) := by
  constructor
  · intro h
    constructor
    · rw [syncRun, bulkHelper_ok batches h]
    · rw [List.length_take]
      exact Nat.min_le_left _ _
  · intro h
    rw [syncRun, bulkHelper_down batches h]

theorem C8_witness :
    (syncRun [BatchResult.ok 2 ["boom"], BatchResult.ok 3 []] =
      some (okTotal [BatchResult.ok 2 ["boom"], BatchResult.ok 3 []],
        (errsTotal [BatchResult.ok 2 ["boom"], BatchResult.ok 3 []]).length,
        (errsTotal [BatchResult.ok 2 ["boom"], BatchResult.ok 3 []]).take 3)) ∧
    syncRun [BatchResult.ok 2 ["boom"], BatchResult.transportDown] = none := by
  refine ⟨((C8_sync_recovery _).1 ?_).1, (C8_sync_recovery _).2 ?_⟩
  · decide
  · decide

/-- Claim C9, counterexample: one `process_from_csv` upsert run holding a
record with a non-null `id_post` and a record without one keys the first by
`id_post` and the second by `texte` — two different identity-key fields in
the same run. -/
theorem C9_counterexample :
    (csvUpsertKey ⟨some 1, ['a'], ['t'], ['l']⟩).1 = MField.id_post ∧
    (csvUpsertKey ⟨none, ['b'], ['t'], ['l']⟩).1 = MField.texte ∧
    MField.id_post ≠ MField.texte := by
  decide

/-- Claim C9, amended: `upsert_records` keys every record of a run by the
single configured field, while `process_from_csv` chooses the key field per
record — `id_post` when present (non-null), else `texte` — so a single run
can mix the two fields. -/
theorem C9_amended (f : MField) (rs : List Rec) :
    (∀ k ∈ upsertRunKeys f rs, k.1 = f) ∧
    (∀ r : Rec, (csvUpsertKey r).1 =
      if r.id_post.isSome then MField.id_post else MField.texte) := by
  constructor
  · intro k hk
    rw [upsertRunKeys] at hk
    obtain ⟨r, _, rfl⟩ := List.mem_map.mp hk
    exact keyFor_fst f r
  · intro r
    cases h : r.id_post <;> simp [csvUpsertKey, h]

theorem C9_witness :
    (∀ k ∈ upsertRunKeys MField.texte
      [(⟨some 1, ['a'], ['t'], ['l']⟩ : Rec), ⟨none, ['b'], ['t'], ['l']⟩],
      k.1 = MField.texte) ∧
    (∀ r : Rec, (csvUpsertKey r).1 =
      if r.id_post.isSome then MField.id_post else MField.texte) :=
  C9_amended MField.texte
    [⟨some 1, ['a'], ['t'], ['l']⟩, ⟨none, ['b'], ['t'], ['l']⟩]

/-- Claim C10: with the function-signature default `by="text"` — a field
absent from the records `upsert_records` builds — every record of a run is
keyed by the identical filter `{"text": None}`, each successive upsert
replaces the previous one, and the whole run changes the store exactly as a
single upsert of the last record would (so at most one document remains for
the whole input); this default also differs from the CLI default `texte`. -/
theorem C10_default_key_collapse (det : List Char → String)
    (ps : List Char → Scores) (store : List Doc) (rs : List Rec) (h : rs ≠ []) :
    (∀ r ∈ rs, keyFor upsertDefaultBy r = (MField.text, none)) ∧
    upsert_records det ps upsertDefaultBy store rs =
      replaceOne (MField.text, none) (buildDoc det ps (rs.getLast h)) store ∧
    upsertDefaultBy ≠ cliDefaultBy := by
  refine ⟨fun r _ => ?_, ?_, by decide⟩
  · rw [upsertDefaultBy]
    exact keyFor_text r
  · rw [upsertDefaultBy]
    exact upsert_text_run det ps rs h store

theorem C10_witness :
    upsert_records (fun _ => "en") (fun _ => ⟨0, 1, 0, 0⟩) upsertDefaultBy []
        [⟨some 1, ['a'], ['t'], ['l']⟩, ⟨some 2, ['b'], ['t'], ['l']⟩] =
      replaceOne (MField.text, none)
        (buildDoc (fun _ => "en") (fun _ => ⟨0, 1, 0, 0⟩)
          (([⟨some 1, ['a'], ['t'], ['l']⟩,
            ⟨some 2, ['b'], ['t'], ['l']⟩] : List Rec).getLast (by decide))) [] :=
  (C10_default_key_collapse (fun _ => "en") (fun _ => ⟨0, 1, 0, 0⟩) []
    [⟨some 1, ['a'], ['t'], ['l']⟩, ⟨some 2, ['b'], ['t'], ['l']⟩]
    (by decide)).2.1
